import Mathlib

/-!
Verification of the core of wordle_ideal_guesses.py: a prefix tree
(trie) answering wildcard-pattern queries, a feedback-variant
enumerator, an exclusion filter, a minimax scorer, and the sampling
driver.  Words and patterns are modelled as lists of characters
(Python strings); candidate sets are `Finset` values (Python
frozensets / sets).
-/

/-- A word (Python `str`): a list of characters. -/
abbrev Word := List Char

/-- Embedding of the `PrefixTree` class: `is_terminal` flag, the list of
words recorded at this node (appended by `add`), and the children
dictionary `data`, modelled as an association list in insertion order
(Python dicts preserve insertion order). -/
inductive PrefixTree : Type where
  | node (is_terminal : Bool) (words : List Word) (data : List (Char × PrefixTree)) : PrefixTree
deriving Inhabited

/-- The words recorded at the root node of a tree. -/
def PrefixTree.words : PrefixTree → List Word
  | .node _ ws _ => ws

/-- The children dictionary of the root node of a tree. -/
def PrefixTree.data : PrefixTree → List (Char × PrefixTree)
  | .node _ _ ds => ds

/-- Dictionary lookup `curr.data[c]` / the membership test `c in curr.data`. -/
def findChild : List (Char × PrefixTree) → Char → Option PrefixTree
  | [], _ => none
  | (k, u) :: ds, c => if k = c then some u else findChild ds c

/-- Embedding of `PrefixTree.__getitem__`: empty pattern returns the words
of the current node; a wildcard position unions the results of querying
every child with the remaining suffix; a fixed letter follows exactly one
child and returns the empty set when that child is absent. -/
def PrefixTree.query : PrefixTree → List Char → Finset Word
  | t, [] => t.words.toFinset
  | t, c :: rest =>
    if c = '.' then
      t.data.foldl (fun acc ct => acc ∪ ct.2.query rest) ∅
    else
      match findChild t.data c with
      | none => ∅
      | some child => child.query rest

/-- A freshly constructed `PrefixTree()`. -/
def PrefixTree.empty : PrefixTree := .node false [] []

/-- `curr.data[c] = t`: replace the binding of `c` in place when present
(Python dict update keeps the key position), otherwise append the new
binding at the end (dict insertion order). -/
def replaceChild : List (Char × PrefixTree) → Char → PrefixTree → List (Char × PrefixTree)
  | [], c, t => [(c, t)]
  | (k, u) :: ds, c, t => if k = c then (k, t) :: ds else (k, u) :: replaceChild ds c t

/-- Embedding of `PrefixTree.add`: walk the characters of the word,
creating missing children, and record the full word at the terminal
node (setting `is_terminal` and appending to `words`). -/
def PrefixTree.add : PrefixTree → List Char → Word → PrefixTree
  | .node _ ws ds, [], full => .node true (ws ++ [full]) ds
  | .node b ws ds, c :: rest, full =>
    .node b ws (replaceChild ds c (((findChild ds c).getD PrefixTree.empty).add rest full))

/-- Embedding of `construct_prefix_tree_from_word_list`: fold `add`
over the vocabulary (the word list itself is supplied by the caller;
file loading is external).  No validation of any kind is performed. -/
def construct_prefix_tree_from_word_list (vocab : List Word) : PrefixTree :=
  vocab.foldl (fun t w => t.add w w) PrefixTree.empty

/-- A word matches a pattern when they have the same length and every
pattern position is either the wildcard character or the word's letter
at that position. -/
def patMatch : Word → List Char → Bool
  | [], [] => true
  | _ :: _, [] => false
  | [], _ :: _ => false
  | cw :: w, cp :: p => (cp == '.' || cp == cw) && patMatch w p

/-- Querying the freshly constructed empty tree yields the empty set for
every pattern. -/
lemma empty_query (p : List Char) : PrefixTree.empty.query p = ∅ := by
  cases p with
  | nil => rfl
  | cons c rest =>
    simp only [PrefixTree.query, PrefixTree.empty, PrefixTree.data, List.foldl_nil, findChild]
    split <;> rfl

/-- Membership in the union fold over the children dictionary. -/
lemma mem_foldl_union (x : Word) (rest : List Char) :
    ∀ (ds : List (Char × PrefixTree)) (init : Finset Word),
      x ∈ ds.foldl (fun acc ct => acc ∪ ct.2.query rest) init ↔
        x ∈ init ∨ ∃ ct ∈ ds, x ∈ ct.2.query rest := by
  intro ds
  induction ds with
  | nil => simp
  | cons hd tl ih =>
    intro init
    simp only [List.foldl_cons, ih, Finset.mem_union, List.mem_cons]
    constructor
    · rintro ((h | h) | ⟨ct, hct, h⟩)
      · exact Or.inl h
      · exact Or.inr ⟨hd, Or.inl rfl, h⟩
      · exact Or.inr ⟨ct, Or.inr hct, h⟩
    · rintro (h | ⟨ct, (rfl | hct), h⟩)
      · exact Or.inl (Or.inl h)
      · exact Or.inl (Or.inr h)
      · exact Or.inr ⟨ct, hct, h⟩

/-- `findChild` returns `none` exactly when no binding has the key. -/
lemma findChild_eq_none_iff (ds : List (Char × PrefixTree)) (c : Char) :
    findChild ds c = none ↔ ∀ e ∈ ds, e.1 ≠ c := by
  induction ds with
  | nil => simp [findChild]
  | cons hd tl ih =>
    obtain ⟨k, u⟩ := hd
    by_cases hk : k = c <;> simp [findChild, hk, ih]

/-- Lookup skips over an initial segment whose keys all differ from the
key looked up. -/
lemma findChild_append_of_ne (l1 l2 : List (Char × PrefixTree)) (c : Char)
    (h : ∀ e ∈ l1, e.1 ≠ c) : findChild (l1 ++ l2) c = findChild l2 c := by
  induction l1 with
  | nil => rfl
  | cons hd tl ih =>
    obtain ⟨k, u⟩ := hd
    have hk : k ≠ c := h (k, u) (List.mem_cons_self _ _)
    simp only [List.cons_append, findChild, if_neg hk]
    exact ih fun e he => h e (List.mem_cons_of_mem _ he)

/-- Replacing the binding of one key leaves lookups of other keys
unchanged. -/
lemma findChild_replaceChild_ne (ds : List (Char × PrefixTree)) (c d : Char)
    (t : PrefixTree) (h : d ≠ c) :
    findChild (replaceChild ds c t) d = findChild ds d := by
  induction ds with
  | nil => simp [replaceChild, findChild, Ne.symm h]
  | cons hd tl ih =>
    obtain ⟨k, u⟩ := hd
    by_cases hk : k = c
    · subst hk
      simp [replaceChild, findChild, Ne.symm h]
    · simp only [replaceChild, if_neg hk, findChild]
      by_cases hkd : k = d <;> simp [hkd, ih]

/-- Structure of `replaceChild`: either the key is absent and the new
binding is appended at the end, or the first binding of the key is
replaced in place. -/
lemma replaceChild_struct :
    ∀ (ds : List (Char × PrefixTree)) (c : Char) (t : PrefixTree),
      (findChild ds c = none ∧ replaceChild ds c t = ds ++ [(c, t)]) ∨
      ∃ l1 u l2, ds = l1 ++ (c, u) :: l2 ∧ findChild ds c = some u ∧
        replaceChild ds c t = l1 ++ (c, t) :: l2 ∧ ∀ e ∈ l1, e.1 ≠ c := by
  intro ds
  induction ds with
  | nil => intro c t; exact Or.inl ⟨rfl, rfl⟩
  | cons hd tl ih =>
    intro c t
    obtain ⟨k, u⟩ := hd
    by_cases hk : k = c
    · subst hk
      refine Or.inr ⟨[], u, tl, by simp, ?_, ?_, by simp⟩
      · simp [findChild]
      · simp [replaceChild]
    · rcases ih c t with ⟨h1, h2⟩ | ⟨l1, v, l2, hds, hfind, hrep, hl1⟩
      · refine Or.inl ⟨?_, ?_⟩
        · simp [findChild, hk, h1]
        · simp [replaceChild, hk, h2]
      · refine Or.inr ⟨(k, u) :: l1, v, l2, by simp [hds], ?_, ?_, ?_⟩
        · simp [findChild, hk, hfind]
        · simp [replaceChild, hk, hrep]
        · intro e he
          rcases List.mem_cons.mp he with rfl | he
          · exact hk
          · exact hl1 e he

/-- Bounded existentials distribute over list append. -/
lemma exists_mem_append_iff {α : Type} (p : α → Prop) (l1 l2 : List α) :
    (∃ x ∈ l1 ++ l2, p x) ↔ (∃ x ∈ l1, p x) ∨ ∃ x ∈ l2, p x := by
  simp only [List.mem_append, or_and_right, exists_or]

/-- Bounded existentials distribute over list cons. -/
lemma exists_mem_cons_head_iff {α : Type} (p : α → Prop) (a : α) (l : List α) :
    (∃ x ∈ a :: l, p x) ↔ p a ∨ ∃ x ∈ l, p x := by
  simp only [List.mem_cons, or_and_right, exists_or, exists_eq_left]


/-- Unfolding of `query` at a wildcard position. -/
lemma query_wildcard (b : Bool) (ws : List Word) (ds : List (Char × PrefixTree))
    (pr : List Char) :
    (PrefixTree.node b ws ds).query ('.' :: pr) =
      ds.foldl (fun acc ct => acc ∪ ct.2.query pr) ∅ := by
  simp [PrefixTree.query, PrefixTree.data]

/-- Unfolding of `query` at a fixed-letter position. -/
lemma query_letter (b : Bool) (ws : List Word) (ds : List (Char × PrefixTree))
    (d : Char) (pr : List Char) (hd : d ≠ '.') :
    (PrefixTree.node b ws ds).query (d :: pr) =
      match findChild ds d with
      | none => ∅
      | some child => child.query pr := by
  simp [PrefixTree.query, PrefixTree.data, hd]

/-- After replacing the binding of a key, looking that key up returns the
new value. -/
lemma findChild_replaceChild_self (ds : List (Char × PrefixTree)) (c : Char)
    (t : PrefixTree) : findChild (replaceChild ds c t) c = some t := by
  induction ds with
  | nil => simp [replaceChild, findChild]
  | cons hd tl ih =>
    obtain ⟨k, u⟩ := hd
    by_cases hk : k = c <;> simp [replaceChild, findChild, hk, ih]

/-- Inserting one word into a tree adds to every query result exactly
that word, on the patterns it matches. -/
lemma mem_query_add :
    ∀ (p : List Char) (t : PrefixTree) (w : List Char) (full x : Word),
      x ∈ (t.add w full).query p ↔
        x ∈ t.query p ∨ (x = full ∧ patMatch w p = true) := by
  intro p
  induction p with
  | nil =>
    intro t w full x
    obtain ⟨b, ws, ds⟩ := t
    cases w with
    | nil =>
      simp [PrefixTree.add, PrefixTree.query, PrefixTree.words, patMatch]
    | cons c wr =>
      simp [PrefixTree.add, PrefixTree.query, PrefixTree.words, patMatch]
  | cons d pr ih =>
    intro t w full x
    obtain ⟨b, ws, ds⟩ := t
    cases w with
    | nil =>
      have hadd : (PrefixTree.node b ws ds).add [] full =
          PrefixTree.node true (ws ++ [full]) ds := rfl
      have hpm : patMatch [] (d :: pr) = false := rfl
      rw [hadd, hpm]
      by_cases hd : d = '.'
      · subst hd
        rw [query_wildcard, query_wildcard]
        simp
      · rw [query_letter _ _ _ _ _ hd, query_letter _ _ _ _ _ hd]
        simp
    | cons c wr =>
      have hadd : (PrefixTree.node b ws ds).add (c :: wr) full =
          PrefixTree.node b ws
            (replaceChild ds c (((findChild ds c).getD PrefixTree.empty).add wr full)) := rfl
      rw [hadd]
      by_cases hd : d = '.'
      · subst hd
        have hpm : patMatch (c :: wr) ('.' :: pr) = patMatch wr pr := by
          simp [patMatch]
        rw [query_wildcard, query_wildcard, hpm, mem_foldl_union, mem_foldl_union]
        simp only [Finset.not_mem_empty, false_or]
        rcases replaceChild_struct ds c (((findChild ds c).getD PrefixTree.empty).add wr full)
          with ⟨h1, h2⟩ | ⟨l1, u, l2, hds, hfind, hrep, hl1⟩
        · rw [h2, h1, exists_mem_append_iff]
          simp only [Option.getD_none, List.mem_singleton]
          constructor
          · rintro (h | ⟨ct, rfl, h⟩)
            · exact Or.inl h
            · rcases (ih _ _ _ _).mp h with h | h
              · rw [empty_query] at h
                exact absurd h (Finset.not_mem_empty x)
              · exact Or.inr h
          · rintro (h | h)
            · exact Or.inl h
            · refine Or.inr ⟨_, rfl, ?_⟩
              exact (ih _ _ _ _).mpr (Or.inr h)
        · rw [hrep, hfind]
          conv_rhs => rw [hds]
          rw [exists_mem_append_iff, exists_mem_append_iff,
            exists_mem_cons_head_iff, exists_mem_cons_head_iff]
          simp only [Option.getD_some]
          rw [ih]
          constructor
          · rintro (h | (hc | hr) | hb)
            · exact Or.inl (Or.inl h)
            · exact Or.inl (Or.inr (Or.inl hc))
            · exact Or.inr hr
            · exact Or.inl (Or.inr (Or.inr hb))
          · rintro ((h | hc | hb) | hr)
            · exact Or.inl h
            · exact Or.inr (Or.inl (Or.inl hc))
            · exact Or.inr (Or.inr hb)
            · exact Or.inr (Or.inl (Or.inr hr))
      · have hdbeq : (d == '.') = false := by simpa using hd
        rw [query_letter _ _ _ _ _ hd, query_letter _ _ _ _ _ hd]
        by_cases hdc : d = c
        · subst hdc
          rw [findChild_replaceChild_self]
          have hpm : patMatch (d :: wr) (d :: pr) = patMatch wr pr := by
            simp [patMatch, hdbeq]
          rw [hpm]
          cases hfc : findChild ds d with
          | none =>
            simp only [hfc, Option.getD_none]
            rw [ih]
            simp [empty_query]
          | some u =>
            simp only [hfc, Option.getD_some]
            rw [ih]
        · have hpm : patMatch (c :: wr) (d :: pr) = false := by
            have hbc : (d == c) = false := by simpa using hdc
            simp [patMatch, hdbeq, hbc]
          rw [findChild_replaceChild_ne ds c d _ hdc, hpm]
          simp

/-- Folding `add` over a word list: queries see the old tree's results
plus the inserted words that match the pattern. -/
lemma mem_query_foldl_add :
    ∀ (vocab : List Word) (t : PrefixTree) (p : List Char) (x : Word),
      x ∈ (vocab.foldl (fun t w => t.add w w) t).query p ↔
        x ∈ t.query p ∨ (x ∈ vocab ∧ patMatch x p = true) := by
  intro vocab
  induction vocab with
  | nil => simp
  | cons w vs ih =>
    intro t p x
    simp only [List.foldl_cons, ih, mem_query_add, List.mem_cons]
    constructor
    · rintro ((h | ⟨rfl, h⟩) | ⟨h1, h2⟩)
      · exact Or.inl h
      · exact Or.inr ⟨Or.inl rfl, h⟩
      · exact Or.inr ⟨Or.inr h1, h2⟩
    · rintro (h | ⟨rfl | h1, h2⟩)
      · exact Or.inl (Or.inl h)
      · exact Or.inl (Or.inr ⟨rfl, h2⟩)
      · exact Or.inr ⟨h1, h2⟩

/-- The index built from a vocabulary answers every query with exactly
the inserted words matching the pattern. -/
lemma mem_query_construct (vocab : List Word) (p : List Char) (x : Word) :
    x ∈ (construct_prefix_tree_from_word_list vocab).query p ↔
      x ∈ vocab ∧ patMatch x p = true := by
  rw [construct_prefix_tree_from_word_list, mem_query_foldl_add, empty_query]
  simp

/-- `patMatch` is positionwise matching: same length, and each pattern
position is the wildcard or the word's letter there. -/
lemma patMatch_iff (x : Word) (p : List Char) :
    patMatch x p = true ↔ List.Forall₂ (fun pc xc => pc = '.' ∨ pc = xc) p x := by
  induction x generalizing p with
  | nil =>
    cases p <;> simp [patMatch]
  | cons cw w ih =>
    cases p with
    | nil => simp [patMatch]
    | cons cp pr =>
      simp [patMatch, List.forall₂_cons, ih, Bool.or_eq_true, beq_iff_eq, and_comm]

/-- Embedding of `it.product(*zip(word, "." * len(word)))` inside
`variants_of`: every way of keeping or masking each position, the kept
letter listed before the wildcard, earlier positions varying slowest
(itertools.product order). -/
def choices : Word → List (List Char)
  | [] => [[]]
  | c :: rest => (choices rest).map (fun v => c :: v) ++ (choices rest).map (fun v => '.' :: v)

/-- Embedding of `variants_of`: each pattern is paired with the letters
of the word that do not occur in the pattern (`set(word) - set(variant)`,
the wildcard character never being a letter of a word). -/
def variants_of (word : Word) : List (List Char × Finset Char) :=
  (choices word).map (fun v => (v, word.toFinset \ v.toFinset))

/-- A word of length L has exactly 2 ^ L pattern choices. -/
lemma length_choices (w : Word) : (choices w).length = 2 ^ w.length := by
  induction w with
  | nil => rfl
  | cons c rest ih =>
    simp only [choices, List.length_append, List.length_map, ih, List.length_cons, pow_succ]
    omega

/-- Every pattern choice agrees with the word positionwise up to
wildcards. -/
lemma mem_choices_forall₂ :
    ∀ (w : Word) (v : List Char), v ∈ choices w →
      List.Forall₂ (fun pc wc => pc = '.' ∨ pc = wc) v w := by
  intro w
  induction w with
  | nil =>
    intro v hv
    simp only [choices, List.mem_singleton] at hv
    subst hv
    exact List.Forall₂.nil
  | cons c rest ih =>
    intro v hv
    simp only [choices, List.mem_append, List.mem_map] at hv
    rcases hv with ⟨v1, hv1, rfl⟩ | ⟨v1, hv1, rfl⟩
    · exact List.Forall₂.cons (Or.inr rfl) (ih v1 hv1)
    · exact List.Forall₂.cons (Or.inl rfl) (ih v1 hv1)

/-- Embedding of `get_valid_word_set_after_exclusions`: keep the words
none of whose letters is excluded. -/
def get_valid_word_set_after_exclusions
    (word_set : Finset Word) (excluded_letters_from_word : Finset Char) : Finset Word :=
  word_set.filter (fun w => ∀ c ∈ w, c ∉ excluded_letters_from_word)

/-- Embedding of `it.product` over a list of lists (the cross product of
the per-word variant lists in `main`): all ways of choosing one element
from each list, earlier lists varying slowest. -/
def prodLists {α : Type} : List (List α) → List (List α)
  | [] => [[]]
  | l :: ls => l.flatMap (fun x => (prodLists ls).map (fun ys => x :: ys))

/-- Embedding of `set.intersection(*sets)`: intersect a non-empty list
of sets (Python raises on an empty argument list, which `main` never
produces since every guess tuple has three words). -/
def intersectAll : List (Finset Word) → Finset Word
  | [] => ∅
  | s :: ss => ss.foldl (fun a b => a ∩ b) s

/-- The score `main` assigns to one combination of variants: query the
tree with each chosen pattern, filter by the matching excluded-letter
set, intersect all results, and count. -/
def variant_combo_score (tree : PrefixTree) (combo : List (List Char × Finset Char)) : Nat :=
  (intersectAll (combo.map
    (fun ve => get_valid_word_set_after_exclusions (tree.query ve.1) ve.2))).card

/-- Embedding of the per-tuple minimax loop in `main`: fold over every
variant combination keeping the worst (largest) combination score,
starting from 0. -/
def score (tree : PrefixTree) (selected_words : List Word) : Nat :=
  (prodLists (selected_words.map variants_of)).foldl
    (fun worst combo =>
      if variant_combo_score tree combo > worst then variant_combo_score tree combo else worst) 0

/-- Membership in the cross product is choosing one element per list. -/
lemma mem_prodLists {α : Type} :
    ∀ (ls : List (List α)) (combo : List α),
      combo ∈ prodLists ls ↔ List.Forall₂ (fun x l => x ∈ l) combo ls := by
  intro ls
  induction ls with
  | nil =>
    intro combo
    constructor
    · intro h
      simp only [prodLists, List.mem_singleton] at h
      subst h
      exact List.Forall₂.nil
    · intro h
      cases h
      simp [prodLists]
  | cons l ls ih =>
    intro combo
    simp only [prodLists, List.mem_flatMap, List.mem_map]
    constructor
    · rintro ⟨x, hx, ys, hys, rfl⟩
      exact List.Forall₂.cons hx ((ih ys).mp hys)
    · intro h
      cases h with
      | cons hx hys => exact ⟨_, hx, _, (ih _).mpr hys, rfl⟩

/-- The cross product of non-empty lists is non-empty. -/
lemma prodLists_exists {α : Type} :
    ∀ (ls : List (List α)), (∀ l ∈ ls, ∃ x, x ∈ l) → ∃ combo, combo ∈ prodLists ls := by
  intro ls
  induction ls with
  | nil => intro _; exact ⟨[], by simp [prodLists]⟩
  | cons l ls ih =>
    intro h
    obtain ⟨x, hx⟩ := h l (List.mem_cons_self _ _)
    obtain ⟨combo, hcombo⟩ := ih fun l2 hl2 => h l2 (List.mem_cons_of_mem _ hl2)
    exact ⟨x :: combo, (mem_prodLists _ _).mpr
      (List.Forall₂.cons hx ((mem_prodLists _ _).mp hcombo))⟩

/-- The running-maximum fold bounds every entry and is attained. -/
lemma foldl_worst_spec {α : Type} (f : α → Nat) :
    ∀ (l : List α) (init : Nat),
      (∀ a ∈ l, f a ≤ l.foldl (fun worst x => if f x > worst then f x else worst) init) ∧
      init ≤ l.foldl (fun worst x => if f x > worst then f x else worst) init ∧
      (l.foldl (fun worst x => if f x > worst then f x else worst) init = init ∨
        ∃ a ∈ l, l.foldl (fun worst x => if f x > worst then f x else worst) init = f a) := by
  intro l
  induction l with
  | nil => intro init; exact ⟨by simp, by simp, Or.inl rfl⟩
  | cons a l ih =>
    intro init
    simp only [List.foldl_cons, List.mem_cons]
    obtain ⟨h1, h2, h3⟩ := ih (if f a > init then f a else init)
    refine ⟨?_, ?_, ?_⟩
    · rintro b (rfl | hb)
      · exact le_trans (by split <;> omega) h2
      · exact h1 b hb
    · exact le_trans (by split <;> omega) h2
    · rcases h3 with h | ⟨b, hb, h⟩
      · by_cases hfa : f a > init
        · refine Or.inr ⟨a, Or.inl rfl, ?_⟩
          rw [h, if_pos hfa]
        · refine Or.inl ?_
          rw [h, if_neg hfa]
      · exact Or.inr ⟨b, Or.inr hb, h⟩

/-- The error `random.sample` raises when asked for more elements than
the population holds (sampling is without replacement). -/
inductive SampleError : Type where
  | sampleLargerThanPopulation : SampleError
deriving DecidableEq, Inhabited

deriving instance DecidableEq for Except

/-- Selection core of `random.sample`, with the random source made
explicit as a list of numbers: repeatedly pick one position of the
remaining population (index derived from the source modulo its size)
and remove it, so one call never picks the same position twice. -/
def pick {α : Type} (r : List Nat) (pop : List α) : Nat → List α
  | 0 => []
  | Nat.succ k =>
    if h : pop.length = 0 then []
    else
      pop.get ⟨r.headD 0 % pop.length, Nat.mod_lt _ (Nat.pos_of_ne_zero h)⟩ ::
        pick r.tail (pop.eraseIdx (r.headD 0 % pop.length)) k

/-- Embedding of `random.sample(population, k)`: error when `k` exceeds
the population size, otherwise `k` draws without replacement. -/
def randomSample {α : Type} (r : List Nat) (population : List α) (k : Nat) :
    Except SampleError (List α) :=
  if population.length < k then .error .sampleLargerThanPopulation
  else .ok (pick r population k)

/-- The guess tuples `main` iterates over:
`it.product(random.sample(guess_words, n1), random.sample(guess_words, n2),
random.sample(guess_words, n3))`, with the three sample calls evaluated
(and any error raised) before the scoring loop starts. -/
def sampledTuples (r1 r2 r3 : List Nat) (guess_words : List Word) (n1 n2 n3 : Nat) :
    Except SampleError (List (List Word)) :=
  match randomSample r1 guess_words n1 with
  | .error e => .error e
  | .ok s1 =>
    match randomSample r2 guess_words n2 with
    | .error e => .error e
    | .ok s2 =>
      match randomSample r3 guess_words n3 with
      | .error e => .error e
      | .ok s3 => .ok (prodLists [s1, s2, s3])

/-- Python comparison of `(score, words)` pairs: by score first, then by
the words, strings and tuples ordered lexicographically. -/
def tuple_le (a b : Nat × List Word) : Bool :=
  decide (a.1 < b.1) || (decide (a.1 = b.1) && decide (a.2 ≤ b.2))

/-- Embedding of `sorted(pair_scores[:100], reverse=True)` in `main`:
take the first 100 scored tuples, then sort them in descending pair
order. -/
def reportedResults (pair_scores : List (Nat × List Word)) : List (Nat × List Word) :=
  (pair_scores.take 100).mergeSort (fun a b => tuple_le b a)

/-- Embedding of `main`, with the file-loaded word lists and the sample
sizes supplied by the caller and the hidden random state made explicit:
build the index from the solution list, sample the guess words, score
every sampled tuple, and report the first 100 results sorted
descending. -/
def mainDriver (r1 r2 r3 : List Nat) (solution_words guess_words : List Word)
    (n1 n2 n3 : Nat) : Except SampleError (List (Nat × List Word)) :=
  match sampledTuples r1 r2 r3 guess_words n1 n2 n3 with
  | .error e => .error e
  | .ok tuples =>
    .ok (reportedResults (tuples.map
      (fun t => (score (construct_prefix_tree_from_word_list solution_words) t, t))))

/-- Every picked element comes from the population. -/
lemma pick_subset {α : Type} :
    ∀ (k : Nat) (r : List Nat) (pop : List α), ∀ x ∈ pick r pop k, x ∈ pop := by
  intro k
  induction k with
  | zero => intro r pop x hx; simp [pick] at hx
  | succ k ih =>
    intro r pop x hx
    rw [pick] at hx
    split at hx
    · simp at hx
    · rcases List.mem_cons.mp hx with rfl | hx
      · exact List.get_mem _ _ _
      · exact List.eraseIdx_subset _ _ (ih _ _ x hx)

/-- Exactly `k` elements are picked when the population suffices. -/
lemma pick_length {α : Type} :
    ∀ (k : Nat) (r : List Nat) (pop : List α), k ≤ pop.length →
      (pick r pop k).length = k := by
  intro k
  induction k with
  | zero => intro r pop _; rfl
  | succ k ih =>
    intro r pop hk
    have hpos : pop.length ≠ 0 := by omega
    rw [pick, dif_neg hpos]
    have hlt : r.headD 0 % pop.length < pop.length :=
      Nat.mod_lt _ (Nat.pos_of_ne_zero hpos)
    have herase : (pop.eraseIdx (r.headD 0 % pop.length)).length = pop.length - 1 :=
      List.length_eraseIdx_of_lt hlt
    simp only [List.length_cons]
    rw [ih _ _ (by omega)]

/-- An element of a duplicate-free list does not survive the removal of
its own position. -/
lemma get_not_mem_eraseIdx {α : Type} :
    ∀ (pop : List α) (i : Nat) (h : i < pop.length), pop.Nodup →
      pop.get ⟨i, h⟩ ∉ pop.eraseIdx i := by
  intro pop
  induction pop with
  | nil => intro i h; simp at h
  | cons a l ih =>
    intro i h hnd
    obtain ⟨ha, hl⟩ := List.nodup_cons.mp hnd
    cases i with
    | zero => simpa using ha
    | succ j =>
      have hj : j < l.length := by simpa using h
      simp only [List.eraseIdx_cons_succ, List.get_cons_succ, List.mem_cons]
      push_neg
      refine ⟨?_, ih j hj hl⟩
      intro heq
      exact ha (heq ▸ List.get_mem _ _ _)

/-- Sampling without replacement from a duplicate-free population yields
a duplicate-free sample. -/
lemma pick_nodup {α : Type} :
    ∀ (k : Nat) (r : List Nat) (pop : List α), pop.Nodup → (pick r pop k).Nodup := by
  intro k
  induction k with
  | zero => intro r pop _; simp [pick]
  | succ k ih =>
    intro r pop hnd
    rw [pick]
    split
    · simp
    · refine List.nodup_cons.mpr ⟨?_, ih _ _ ((List.eraseIdx_sublist _ _).nodup hnd)⟩
      intro hmem
      exact get_not_mem_eraseIdx pop _ _ hnd (pick_subset _ _ _ _ hmem)

/-- `tuple_le` spelt as a proposition. -/
lemma tuple_le_iff (a b : Nat × List Word) :
    tuple_le a b = true ↔ a.1 < b.1 ∨ (a.1 = b.1 ∧ a.2 ≤ b.2) := by
  simp [tuple_le]

/-- The pair comparison is transitive. -/
lemma tuple_le_trans (a b c : Nat × List Word)
    (hab : tuple_le a b = true) (hbc : tuple_le b c = true) : tuple_le a c = true := by
  rw [tuple_le_iff] at hab hbc ⊢
  rcases hab with h1 | ⟨h1, h1w⟩ <;> rcases hbc with h2 | ⟨h2, h2w⟩
  · exact Or.inl (lt_trans h1 h2)
  · exact Or.inl (h2 ▸ h1)
  · exact Or.inl (h1 ▸ h2)
  · exact Or.inr ⟨h1.trans h2, le_trans h1w h2w⟩

/-- The pair comparison is total. -/
lemma tuple_le_total (a b : Nat × List Word) :
    (tuple_le a b || tuple_le b a) = true := by
  rcases lt_trichotomy a.1 b.1 with h | h | h
  · simp [tuple_le_iff, h]
  · rcases le_total a.2 b.2 with hw | hw <;> simp [tuple_le_iff, h, hw]
  · simp [tuple_le_iff, h]

/-- The report is a permutation of the first 100 scored tuples. -/
lemma reportedResults_perm (pair_scores : List (Nat × List Word)) :
    (reportedResults pair_scores).Perm (pair_scores.take 100) :=
  List.mergeSort_perm _ _

/-- The report is sorted with scores descending. -/
lemma reportedResults_sorted (pair_scores : List (Nat × List Word)) :
    (reportedResults pair_scores).Pairwise (fun a b => b.1 ≤ a.1) := by
  have h := @List.sorted_mergeSort (Nat × List Word)
    (fun a b => tuple_le b a)
    (fun a b c hab hbc => tuple_le_trans c b a hbc hab)
    (fun a b => tuple_le_total b a)
    (pair_scores.take 100)
  refine List.Pairwise.imp ?_ h
  intro a b hab
  rcases (tuple_le_iff b a).mp hab with h1 | ⟨h1, _⟩
  · exact le_of_lt h1
  · exact le_of_eq h1

/-- C2: for every pattern of length L over an index built from a
vocabulary of length-L words, `query` returns exactly the vocabulary
words matching the pattern positionwise (wildcard or equal letter); in
particular over {rat, cat, bat} the query ".at" returns all three words,
and over {rat} the query "r.." returns {rat} while "z.." returns the
empty set. -/
theorem query_matches_vocabulary (vocab : List Word) (p : List Char) (L : Nat)
    (hv : ∀ w ∈ vocab, w.length = L) (hp : p.length = L) :
    (∀ x : Word, x ∈ (construct_prefix_tree_from_word_list vocab).query p ↔
        x ∈ vocab ∧ List.Forall₂ (fun pc xc => pc = '.' ∨ pc = xc) p x) ∧
    (construct_prefix_tree_from_word_list
        [['r','a','t'], ['c','a','t'], ['b','a','t']]).query ['.','a','t'] =
      {['r','a','t'], ['c','a','t'], ['b','a','t']} ∧
    (construct_prefix_tree_from_word_list [['r','a','t']]).query ['r','.','.'] =
      {['r','a','t']} ∧
    (construct_prefix_tree_from_word_list [['r','a','t']]).query ['z','.','.'] = ∅ := by
  refine ⟨fun x => ?_, by decide, by decide, by decide⟩
  rw [mem_query_construct, patMatch_iff]

/-- Witness for C2 at the vocabulary {rat, cat, bat} and the pattern
".at". -/
theorem query_matches_vocabulary_witness :
    (construct_prefix_tree_from_word_list
        [['r','a','t'], ['c','a','t'], ['b','a','t']]).query ['.','a','t'] =
      {['r','a','t'], ['c','a','t'], ['b','a','t']} :=
  (query_matches_vocabulary [['r','a','t'], ['c','a','t'], ['b','a','t']] ['.','a','t'] 3
    (by decide) (by decide)).2.1

/-- C10: over an index built from non-empty words, the empty pattern
matches nothing, because no word is recorded at the root node. -/
theorem empty_pattern_query_empty (vocab : List Word) (h : ∀ w ∈ vocab, w ≠ []) :
    (construct_prefix_tree_from_word_list vocab).query [] = ∅ := by
  ext x
  simp only [mem_query_construct, Finset.not_mem_empty, iff_false, not_and]
  intro hx
  cases x with
  | nil => exact fun _ => h [] hx rfl
  | cons c w => simp [patMatch]

/-- Witness for C10 at the vocabulary {a}. -/
theorem empty_pattern_query_empty_witness :
    (construct_prefix_tree_from_word_list [['a']]).query [] = ∅ :=
  empty_pattern_query_empty [['a']] (by decide)

/-- Counterexample to C6: building the index from a mixed-length
vocabulary, or from the empty vocabulary, raises nothing — construction
completes and the resulting indexes answer queries normally. -/
theorem construction_accepts_invalid_vocabulary :
    (construct_prefix_tree_from_word_list [['a'], ['b','c']]).query ['a'] = {['a']} ∧
    (construct_prefix_tree_from_word_list [['a'], ['b','c']]).query ['b','.'] = {['b','c']} ∧
    (construct_prefix_tree_from_word_list ([] : List Word)).query ['a'] = ∅ :=
  ⟨by decide, by decide, by decide⟩

/-- C6 amended: index construction performs no validation and cannot
fail; for every vocabulary — empty or of mixed lengths included — it
builds an index whose queries return exactly the inserted matching
words, the empty vocabulary yielding an index that matches nothing. -/
theorem construction_never_fails :
    (∀ (vocab : List Word) (p : List Char) (x : Word),
      x ∈ (construct_prefix_tree_from_word_list vocab).query p ↔
        x ∈ vocab ∧ patMatch x p = true) ∧
    ∀ p : List Char, (construct_prefix_tree_from_word_list []).query p = ∅ := by
  refine ⟨fun vocab p x => mem_query_construct vocab p x, fun p => ?_⟩
  ext x
  simp [mem_query_construct]

/-- C3: `variants_of` yields exactly 2 ^ L entries for a word of length
L; each entry's pattern has length L and agrees with the word at every
non-wildcard position, and each entry's excluded-letter set is the set
of letters of the word minus the letters at the kept positions of its
pattern. -/
theorem variants_of_spec (w : Word) (hw : '.' ∉ w) :
    (variants_of w).length = 2 ^ w.length ∧
    ∀ ve ∈ variants_of w,
      ve.1.length = w.length ∧
      List.Forall₂ (fun pc wc => pc = '.' ∨ pc = wc) ve.1 w ∧
      ve.2 = w.toFinset \ (ve.1.toFinset \ {'.'}) := by
  refine ⟨by simp [variants_of, length_choices], ?_⟩
  intro ve hve
  simp only [variants_of, List.mem_map] at hve
  obtain ⟨v, hv, rfl⟩ := hve
  have hf := mem_choices_forall₂ w v hv
  refine ⟨hf.length_eq, hf, ?_⟩
  ext a
  simp only [Finset.mem_sdiff, List.mem_toFinset, Finset.mem_singleton]
  constructor
  · rintro ⟨haw, hav⟩
    exact ⟨haw, fun hc => hav hc.1⟩
  · rintro ⟨haw, hno⟩
    refine ⟨haw, fun hav => ?_⟩
    exact hno ⟨hav, fun he => hw (he ▸ haw)⟩

/-- Witness for C3 at the word "rat". -/
theorem variants_of_spec_witness :
    (variants_of ['r','a','t']).length = 2 ^ 3 :=
  (variants_of_spec ['r','a','t'] (by decide)).1

/-- C4: the exclusion filter returns exactly the words of the input set
none of whose letters is excluded, so its output is a subset of its
input. -/
theorem exclusion_filter_spec (S : Finset Word) (E : Finset Char) :
    (∀ w : Word, w ∈ get_valid_word_set_after_exclusions S E ↔
      w ∈ S ∧ ∀ c ∈ w, c ∉ E) ∧
    get_valid_word_set_after_exclusions S E ⊆ S := by
  refine ⟨fun w => ?_, Finset.filter_subset _ _⟩
  simp [get_valid_word_set_after_exclusions, Finset.mem_filter]

/-- C9: filtering an already-filtered set by the same excluded letters
changes nothing. -/
theorem exclusion_filter_idempotent (S : Finset Word) (E : Finset Char) :
    get_valid_word_set_after_exclusions (get_valid_word_set_after_exclusions S E) E =
      get_valid_word_set_after_exclusions S E := by
  simp [get_valid_word_set_after_exclusions, Finset.filter_filter]

/-- C1: the score `main` computes for a guess tuple equals the maximum,
over all combinations in the cross product of the per-word variant
lists, of the size of the intersection of the per-guess candidate sets
(query by the chosen pattern, then filter by its excluded letters). -/
theorem minimax_score_is_worst_case (tree : PrefixTree) (selected_words : List Word)
    (h : selected_words ≠ []) :
    (∀ combo ∈ prodLists (selected_words.map variants_of),
      variant_combo_score tree combo ≤ score tree selected_words) ∧
    ∃ combo ∈ prodLists (selected_words.map variants_of),
      score tree selected_words = variant_combo_score tree combo := by
  obtain ⟨h1, h2, h3⟩ := foldl_worst_spec (variant_combo_score tree)
    (prodLists (selected_words.map variants_of)) 0
  refine ⟨h1, ?_⟩
  rcases h3 with h0 | ⟨a, ha, heq⟩
  · have hne : ∀ l ∈ selected_words.map variants_of, ∃ x, x ∈ l := by
      intro l hl
      obtain ⟨w2, _, rfl⟩ := List.mem_map.mp hl
      cases hv : variants_of w2 with
      | nil =>
        have hlen := length_choices w2
        rw [show (choices w2).length = (variants_of w2).length by
          simp [variants_of], hv] at hlen
        have hpos : 0 < 2 ^ w2.length := pow_pos (by norm_num) w2.length
        simp only [List.length_nil] at hlen
        omega
      | cons y ys =>
        exact ⟨y, List.mem_cons_self y ys⟩
    obtain ⟨combo, hcombo⟩ := prodLists_exists (selected_words.map variants_of) hne
    have hle : variant_combo_score tree combo ≤ score tree selected_words :=
      h1 combo hcombo
    have hs0 : score tree selected_words = 0 := h0
    exact ⟨combo, hcombo, by omega⟩
  · exact ⟨a, ha, heq⟩

/-- Witness for C1 at the one-word index {a} and the tuple (a). -/
theorem minimax_score_is_worst_case_witness :
    variant_combo_score (construct_prefix_tree_from_word_list [['a']]) [(['a'], ∅)] ≤
      score (construct_prefix_tree_from_word_list [['a']]) [['a']] :=
  (minimax_score_is_worst_case (construct_prefix_tree_from_word_list [['a']]) [['a']]
    (by decide)).1 [(['a'], ∅)] (by decide)

/-- C7: whenever a requested per-position sample size exceeds the guess
vocabulary size, the driver stops with the sampling error — the sampling
step itself already fails, so no tuple is scored and no ranking is
produced. -/
theorem sample_size_error_before_scoring (r1 r2 r3 : List Nat)
    (solution_words guess_words : List Word) (n1 n2 n3 : Nat)
    (h : guess_words.length < n1 ∨ guess_words.length < n2 ∨ guess_words.length < n3) :
    mainDriver r1 r2 r3 solution_words guess_words n1 n2 n3 =
      Except.error SampleError.sampleLargerThanPopulation ∧
    sampledTuples r1 r2 r3 guess_words n1 n2 n3 =
      Except.error SampleError.sampleLargerThanPopulation := by
  have hs : sampledTuples r1 r2 r3 guess_words n1 n2 n3 =
      Except.error SampleError.sampleLargerThanPopulation := by
    unfold sampledTuples randomSample
    by_cases h1 : guess_words.length < n1
    · simp only [if_pos h1]
    · by_cases h2 : guess_words.length < n2
      · simp only [if_neg h1, if_pos h2]
      · have h3 : guess_words.length < n3 := by tauto
        simp only [if_neg h1, if_neg h2, if_pos h3]
  refine ⟨?_, hs⟩
  unfold mainDriver
  rw [hs]

/-- Witness for C7: asking for 2 samples from a 1-word vocabulary makes
the driver fail before scoring. -/
theorem sample_size_error_before_scoring_witness :
    mainDriver [] [] [] [] [['a']] 2 0 0 =
      Except.error SampleError.sampleLargerThanPopulation ∧
    sampledTuples [] [] [] [['a']] 2 0 0 =
      Except.error SampleError.sampleLargerThanPopulation :=
  sample_size_error_before_scoring [] [] [] [] [['a']] 2 0 0 (by decide)

/-- Counterexample to C8: the three per-position samples are drawn
independently from the same vocabulary, so over the one-word vocabulary
{rat} the only generated guess tuple is (rat, rat, rat), whose words are
not pairwise distinct. -/
theorem sampled_tuple_repeats_word :
    sampledTuples [] [] [] [['r','a','t']] 1 1 1 =
      Except.ok [[['r','a','t'], ['r','a','t'], ['r','a','t']]] ∧
    ¬ List.Pairwise (fun a b => a ≠ b)
        [['r','a','t'], ['r','a','t'], ['r','a','t']] :=
  ⟨by decide, by decide⟩

/-- C8 amended: each per-position sample is drawn without replacement —
over a duplicate-free vocabulary it is duplicate-free and contains only
vocabulary words — and the generated tuples are exactly the cross
product of the three samples, so each tuple has three components all
from the vocabulary; distinctness across the positions of one tuple is
not guaranteed. -/
theorem sampling_without_replacement_per_position
    (r1 r2 r3 : List Nat) (guess_words : List Word) (n1 n2 n3 : Nat)
    (s1 s2 s3 : List Word) (ts : List (List Word))
    (hnd : guess_words.Nodup)
    (h1 : randomSample r1 guess_words n1 = Except.ok s1)
    (h2 : randomSample r2 guess_words n2 = Except.ok s2)
    (h3 : randomSample r3 guess_words n3 = Except.ok s3)
    (h : sampledTuples r1 r2 r3 guess_words n1 n2 n3 = Except.ok ts) :
    s1.Nodup ∧ s2.Nodup ∧ s3.Nodup ∧
    (∀ w ∈ s1, w ∈ guess_words) ∧ (∀ w ∈ s2, w ∈ guess_words) ∧
    (∀ w ∈ s3, w ∈ guess_words) ∧
    ts = prodLists [s1, s2, s3] ∧
    ∀ t ∈ ts, t.length = 3 ∧ ∀ w ∈ t, w ∈ guess_words := by
  have hpick : ∀ (r : List Nat) (n : Nat) (s : List Word),
      randomSample r guess_words n = Except.ok s → s = pick r guess_words n := by
    intro r n s hr
    unfold randomSample at hr
    split at hr
    · cases hr
    · exact (Except.ok.inj hr).symm
  have hs1 := hpick r1 n1 s1 h1
  have hs2 := hpick r2 n2 s2 h2
  have hs3 := hpick r3 n3 s3 h3
  have hts : ts = prodLists [s1, s2, s3] := by
    unfold sampledTuples at h
    simp only [h1, h2, h3] at h
    exact (Except.ok.inj h).symm
  refine ⟨?_, ?_, ?_, ?_, ?_, ?_, hts, ?_⟩
  · rw [hs1]; exact pick_nodup n1 r1 guess_words hnd
  · rw [hs2]; exact pick_nodup n2 r2 guess_words hnd
  · rw [hs3]; exact pick_nodup n3 r3 guess_words hnd
  · rw [hs1]; exact fun w hw => pick_subset n1 r1 guess_words w hw
  · rw [hs2]; exact fun w hw => pick_subset n2 r2 guess_words w hw
  · rw [hs3]; exact fun w hw => pick_subset n3 r3 guess_words w hw
  · intro t ht
    rw [hts] at ht
    have hf := (mem_prodLists [s1, s2, s3] t).mp ht
    cases hf with
    | cons ha hf2 =>
      cases hf2 with
      | cons hb hf3 =>
        cases hf3 with
        | cons hc hf4 =>
          cases hf4
          refine ⟨rfl, ?_⟩
          intro w hw
          rcases List.mem_cons.mp hw with rfl | hw
          · rw [hs1] at ha; exact pick_subset _ _ _ _ ha
          rcases List.mem_cons.mp hw with rfl | hw
          · rw [hs2] at hb; exact pick_subset _ _ _ _ hb
          rcases List.mem_cons.mp hw with rfl | hw
          · rw [hs3] at hc; exact pick_subset _ _ _ _ hc
          · simp at hw

/-- Witness for the amended C8 over the vocabulary {a, b} with one draw
per position. -/
theorem sampling_without_replacement_per_position_witness :
    [[['a'], ['a'], ['a']]] = prodLists [[['a']], [['a']], [['a']]] :=
  (sampling_without_replacement_per_position [] [] [] [['a'], ['b']] 1 1 1
    [['a']] [['a']] [['a']] [[['a'], ['a'], ['a']]]
    (by decide) (by decide) (by decide) (by decide) (by decide)).2.2.2.2.2.2.1

/-- Counterexample to C5: scoring 101 tuples where the last is the
unique best (lowest-score) one, the driver's report — the first 100
scored tuples sorted descending — contains a worse tuple but not the
best one, so the 100 best are not retained. -/
theorem report_drops_best_tuple :
    ((0 : Nat), [[('b' : Char)]]) ∈
      (List.replicate 100 ((1 : Nat), [[('a' : Char)]]) ++
        [((0 : Nat), [[('b' : Char)]])]) ∧
    ((0 : Nat), [[('b' : Char)]]) ∉
      reportedResults (List.replicate 100 ((1 : Nat), [[('a' : Char)]]) ++
        [((0 : Nat), [[('b' : Char)]])]) ∧
    ((1 : Nat), [[('a' : Char)]]) ∈
      reportedResults (List.replicate 100 ((1 : Nat), [[('a' : Char)]]) ++
        [((0 : Nat), [[('b' : Char)]])]) := by
  refine ⟨by decide, ?_, ?_⟩
  · intro hmem
    have hm := (reportedResults_perm _).mem_iff.mp hmem
    revert hm
    decide
  · refine (reportedResults_perm _).mem_iff.mpr ?_
    decide

/-- C5 amended: the driver retains the first 100 scored tuples in
scoring order — not the 100 best — and reports exactly those, sorted by
score in descending (worst-first) order. -/
theorem report_first_100_sorted_descending (pair_scores : List (Nat × List Word)) :
    (reportedResults pair_scores).Perm (pair_scores.take 100) ∧
    (reportedResults pair_scores).Pairwise (fun a b => b.1 ≤ a.1) :=
  ⟨reportedResults_perm pair_scores, reportedResults_sorted pair_scores⟩
